import Mathlib

/-!
A shallow embedding of the container-provisioning core of the Concourse
`worker` package (`atc/exec/step.go` bundle: the container provider, the
garden worker's mount planning, the worker-compatibility matcher, and the
version-compatibility check), together with theorems settling the frozen
claims C1..C10.

Conventions:
* Go strings are Lean `String`s; `filepath.Clean` is re-implemented over
  `List Char` (Unix rules, as used by the source).
* Effectful collaborators (DB, garden, lock service, volume client) are
  modelled by an environment of oracles (`Env`); `FindOrCreateContainer`
  becomes a pure function of that environment returning an outcome plus a
  record of the externally visible actions (sleeping, destroying).
* Volumes are modelled symbolically by their allocation site, which is all
  the mount-plan claims need.
-/

namespace ConcourseWorker

/-! ## Go `filepath.Clean` (Unix), re-implemented over `List Char` -/

/-- Split a character list on a separator character; always returns at least
one (possibly empty) segment, mirroring Go's `strings.Split`. -/
def splitOnChar (sep : Char) (cur : List Char) : List Char → List (List Char)
  | [] => [cur.reverse]
  | c :: cs => if c = sep then cur.reverse :: splitOnChar sep [] cs else splitOnChar sep (c :: cur) cs

/-- The one-character segment `"."`. -/
def dotSeg : List Char := ['.']

/-- The two-character segment `".."`. -/
def dotDotSeg : List Char := ['.', '.']

/-- The segment-processing loop of `filepath.Clean`: drop empty and `"."`
segments, resolve `".."` against the output stack (dropping it at the root
of a rooted path, keeping it at the front of a relative path). -/
def processSegs (rooted : Bool) (acc : List (List Char)) : List (List Char) → List (List Char)
  | [] => acc.reverse
  | seg :: rest =>
    if seg = [] ∨ seg = dotSeg then processSegs rooted acc rest
    else if seg = dotDotSeg then
      match acc with
      | [] => if rooted then processSegs rooted [] rest else processSegs rooted [dotDotSeg] rest
      | a :: as =>
        if a = dotDotSeg then processSegs rooted (dotDotSeg :: a :: as) rest
        else processSegs rooted as rest
    else processSegs rooted (seg :: acc) rest

/-- Join segments with `'/'`. -/
def joinSegs : List (List Char) → List Char
  | [] => []
  | [s] => s
  | s :: rest => s ++ '/' :: joinSegs (rest)

/-- `filepath.Clean` on a character list (Unix semantics). -/
def cleanChars (s : List Char) : List Char :=
  let rooted := s.head? == some '/'
  let segs := processSegs rooted [] (splitOnChar '/' [] s)
  if rooted then '/' :: joinSegs segs
  else if segs = [] then dotSeg
  else joinSegs segs

/-- Go's `filepath.Clean` on strings. -/
def clean (s : String) : String := ⟨cleanChars s.data⟩

/-! ## Mount planner (`createGardenContainer`), data model -/

/-- One input of a `ContainerSpec`: its destination path, and whether its
artifact source already has a resident volume on this worker
(`inputSource.Source().VolumeOn(...)` returning `found`). -/
structure InputSource where
  destinationPath : String
  hasLocalVolume : Bool
deriving DecidableEq, Repr

/-- The part of `ContainerSpec` that the mount planner consumes: the working
directory, the ordered inputs, and the output destination paths (the values
of the `OutputPaths` map). -/
structure ContainerSpec where
  dir : String
  inputs : List InputSource
  outputs : List String
deriving DecidableEq, Repr

/-- A volume, identified symbolically by its allocation site in
`createGardenContainer`: the scratch volume, the working-directory volume, a
COW or streamed-into volume for the input at a given index, or an empty
volume for an output path. -/
inductive Volume where
  | scratch : Volume
  | workdir : Volume
  | inputCOW : Nat → Volume
  | inputStreamed : Nat → Volume
  | output : String → Volume
deriving DecidableEq, Repr

/-- A `VolumeMount`: a volume together with its mount path in the container. -/
structure VolumeMount where
  volume : Volume
  mountPath : String
deriving DecidableEq, Repr

/-- Go `getDestinationPathsFromInputs`. -/
def getDestinationPathsFromInputs (inputs : List InputSource) : List String :=
  inputs.map (fun i => i.destinationPath)

/-- Go `getDestinationPathsFromOutputs` (the map's values, already a list here). -/
def getDestinationPathsFromOutputs (outputs : List String) : List String :=
  outputs

/-- Go `anyMountTo`: does any destination clean to the same path? -/
def anyMountTo (path : String) (destinationPaths : List String) : Bool :=
  destinationPaths.any (fun d => clean d == clean path)

/-- The volume allocated for the input at index `idx`: copy-on-write of the
resident volume when one exists, otherwise a fresh empty volume streamed into. -/
def inputVolume (idx : Nat) (inp : InputSource) : Volume :=
  if inp.hasLocalVolume then Volume.inputCOW idx else Volume.inputStreamed idx

/-- The input loop of `createGardenContainer`: one mount per input, in order,
at the cleaned destination path, indices counting from `idx`. -/
def inputMountsFrom (idx : Nat) : List InputSource → List VolumeMount
  | [] => []
  | i :: rest => ⟨inputVolume idx i, clean i.destinationPath⟩ :: inputMountsFrom (idx + 1) rest

/-- All input-derived mounts. -/
def inputMounts (inputs : List InputSource) : List VolumeMount :=
  inputMountsFrom 0 inputs

/-- The `inputDestinationPaths` set after the input loop: every cleaned input
destination path. -/
def inputDestinationPaths (inputs : List InputSource) : List String :=
  inputs.map (fun i => clean i.destinationPath)

/-- The output loop of `createGardenContainer`: a fresh empty volume per
output path, except paths already claimed by an input, which are skipped
(the input's volume is reused). -/
def outputMounts (spec : ContainerSpec) : List VolumeMount :=
  (spec.outputs.filter
      (fun o => !((inputDestinationPaths spec.inputs).contains (clean o)))).map
    (fun o => ⟨Volume.output (clean o), clean o⟩)

/-- The `ioVolumeMounts` list before sorting: inputs then outputs. -/
def ioMounts (spec : ContainerSpec) : List VolumeMount :=
  inputMounts spec.inputs ++ outputMounts spec

/-- Whether the working-directory volume is allocated: non-empty `Dir` that is
not already a destination of any output or input. -/
def hasWorkdirVolume (spec : ContainerSpec) : Bool :=
  spec.dir != "" &&
    !(anyMountTo spec.dir (getDestinationPathsFromOutputs spec.outputs)) &&
    !(anyMountTo spec.dir (getDestinationPathsFromInputs spec.inputs))

/-- The working-directory mount, when allocated (mounted at the raw `Dir`). -/
def workdirMounts (spec : ContainerSpec) : List VolumeMount :=
  if hasWorkdirVolume spec then [⟨Volume.workdir, spec.dir⟩] else []

/-- The scratch mount, always first. -/
def scratchMount : VolumeMount := ⟨Volume.scratch, "/scratch"⟩

/-- Lexicographic (Go string) comparison of character lists, non-strict. -/
def listCharLe : List Char → List Char → Bool
  | [], _ => true
  | _ :: _, [] => false
  | a :: as, b :: bs =>
    if a.toNat < b.toNat then true
    else if b.toNat < a.toNat then false
    else listCharLe as bs

theorem listCharLe_total : ∀ as bs : List Char, listCharLe as bs = true ∨ listCharLe bs as = true := by
  intro as
  induction as with
  | nil => intro bs; left; rfl
  | cons a as ih =>
    intro bs
    cases bs with
    | nil => right; rfl
    | cons b bs =>
      by_cases h1 : a.toNat < b.toNat
      · left; simp [listCharLe, h1]
      · by_cases h2 : b.toNat < a.toNat
        · right; simp [listCharLe, h2]
        · rcases ih bs with h | h
          · left; simp [listCharLe, h1, h2, h]
          · right; simp [listCharLe, h1, h2, h]

theorem listCharLe_trans : ∀ as bs cs : List Char,
    listCharLe as bs = true → listCharLe bs cs = true → listCharLe as cs = true := by
  intro as
  induction as with
  | nil => intro bs cs _ _; rfl
  | cons a as ih =>
    intro bs cs hab hbc
    cases bs with
    | nil => simp [listCharLe] at hab
    | cons b bs =>
      cases cs with
      | nil => simp [listCharLe] at hbc
      | cons c cs =>
        simp only [listCharLe] at hab hbc ⊢
        split_ifs at hab hbc ⊢ <;> try omega
        all_goals first
          | rfl
          | (exact ih bs cs hab hbc)

/-- The ordering used by `sort.Sort(byMountPath(...))`: by mount path
(byte-wise string comparison, as in Go). -/
def mountLE (a b : VolumeMount) : Prop :=
  listCharLe a.mountPath.data b.mountPath.data = true

instance : DecidableRel mountLE := fun a b =>
  inferInstanceAs (Decidable (listCharLe a.mountPath.data b.mountPath.data = true))

instance : IsTotal VolumeMount mountLE :=
  ⟨fun a b => listCharLe_total a.mountPath.data b.mountPath.data⟩

instance : IsTrans VolumeMount mountLE :=
  ⟨fun _ _ _ h h' => listCharLe_trans _ _ _ h h'⟩

/-- The full `volumeMounts` assembly of `createGardenContainer`: scratch,
then the working-directory mount when allocated, then the input/output
mounts sorted by mount path. -/
def planMounts (spec : ContainerSpec) : List VolumeMount :=
  scratchMount :: workdirMounts spec ++ List.insertionSort mountLE (ioMounts spec)

/-! ## Worker-compatibility matcher (`Satisfying`, `tagsMatch`,
`determineUnderlyingTypeName`) -/

/-- An entry of a worker's resource-type catalog (`atc.WorkerResourceType`);
only `Type` is consulted by `Satisfying`. -/
structure WorkerResourceType where
  type : String
  image : String
deriving DecidableEq, Repr

/-- An entry of the pipeline's resource-type catalog
(`creds.VersionedResourceType`): its name and the type it is built from. -/
structure VersionedResourceType where
  name : String
  type : String
deriving DecidableEq, Repr

/-- The worker state consulted by the matcher and the version check. -/
structure GWorker where
  teamID : Int
  resourceTypes : List WorkerResourceType
  platform : String
  tags : List String
  version : Option String
deriving DecidableEq, Repr

/-- The selection constraint (`WorkerSpec`). -/
structure WorkerSpec where
  teamID : Int
  resourceType : String
  platform : String
  tags : List String
  resourceTypes : List VersionedResourceType
deriving DecidableEq, Repr

/-- The four selection errors of the matcher. -/
inductive WorkerError where
  | teamMismatch : WorkerError
  | unsupportedResourceType : WorkerError
  | incompatiblePlatform : WorkerError
  | mismatchedTags : WorkerError
deriving DecidableEq, Repr

/-- Go map semantics over an association list: lookup of the first entry for
a key. -/
def mapLookup (m : List (String × String)) (k : String) : Option String :=
  (m.find? (fun p => p.1 == k)).map Prod.snd

/-- Go `delete(m, k)`. -/
def mapErase (m : List (String × String)) (k : String) : List (String × String) :=
  m.filter (fun p => p.1 != k)

/-- Go `m[k] = v`: overwrite any existing entry for the key. -/
def mapInsert (m : List (String × String)) (k v : String) : List (String × String) :=
  (k, v) :: mapErase m k

/-- The `resourceTypesMap` built at the top of `determineUnderlyingTypeName`:
name of each catalog entry mapped to the type it is built from (later
entries overwriting earlier ones, as for a Go map). -/
def buildResourceTypesMap (l : List VersionedResourceType) : List (String × String) :=
  l.foldl (fun m rt => mapInsert m rt.name rt.type) []

theorem mapErase_length_le (m : List (String × String)) (k : String) :
    (mapErase m k).length ≤ m.length :=
  List.length_filter_le _ m

theorem mapErase_length_lt (m : List (String × String)) (k : String)
    (h : mapLookup m k = some v) : (mapErase m k).length < m.length := by
  unfold mapLookup at h
  unfold mapErase
  rcases Option.map_eq_some'.mp h with ⟨p, hp, _⟩
  have hmem : p ∈ m := List.mem_of_find?_eq_some hp
  have hpk := @List.find?_some (String × String) (fun q => q.1 == k) p m hp
  refine List.length_filter_lt_length_iff_exists.mpr ⟨p, hmem, ?_⟩
  have hk : p.1 = k := by simpa using hpk
  simp [hk]

/-- The substitution loop of `determineUnderlyingTypeName`, entered with the
type `ty` found for the previous name: move to `ty`, look it up, delete the
entry just looked up, and continue while the lookup succeeds. Terminates
because every continuing iteration removes the entry it consumed. -/
def resolveLoop (m : List (String × String)) (ty : String) : String :=
  match h : mapLookup m ty with
  | none => ty
  | some ty2 => resolveLoop (mapErase m ty) ty2
termination_by m.length
decreasing_by exact mapErase_length_lt m ty h

/-- Go `determineUnderlyingTypeName`: repeatedly substitute a type's declared
base until no further substitution is defined, never revisiting a consumed
entry. -/
def determineUnderlyingTypeName (typeName : String) (resourceTypes : List VersionedResourceType) :
    String :=
  let m := buildResourceTypesMap resourceTypes
  match mapLookup m typeName with
  | none => typeName
  | some ty => resolveLoop m ty

/-- Fuel-indexed variant of the substitution loop, used to witness that the
loop terminates within `|catalog| + 1` steps even on cyclic catalogs. -/
def resolveLoopFuel : Nat → List (String × String) → String → Option String
  | 0, _, _ => none
  | n + 1, m, ty =>
    match mapLookup m ty with
    | none => some ty
    | some ty2 => resolveLoopFuel n (mapErase m ty) ty2

/-- Fuel-indexed variant of `determineUnderlyingTypeName`. -/
def determineUnderlyingTypeNameFuel (fuel : Nat) (typeName : String)
    (resourceTypes : List VersionedResourceType) : Option String :=
  let m := buildResourceTypesMap resourceTypes
  match mapLookup m typeName with
  | none => some typeName
  | some ty => resolveLoopFuel fuel m ty

/-- Go `tagsMatch`: a tagged worker rejects an empty request, and every
requested tag must be one of the worker's tags. -/
def tagsMatch (w : GWorker) (tags : List String) : Bool :=
  let workerTags := w.tags
  if workerTags.length > 0 && tags.length == 0 then false
  else tags.all (fun stag => workerTags.any (fun wtag => stag == wtag))

/-- Go `Satisfying`: team, resource type, platform, tags, in that order. -/
def satisfying (w : GWorker) (spec : WorkerSpec) : Except WorkerError GWorker :=
  if spec.teamID ≠ w.teamID ∧ w.teamID ≠ 0 then Except.error WorkerError.teamMismatch
  else if spec.resourceType ≠ "" ∧
      (w.resourceTypes.any
        (fun t => t.type == determineUnderlyingTypeName spec.resourceType spec.resourceTypes))
        = false then
    Except.error WorkerError.unsupportedResourceType
  else if spec.platform ≠ "" ∧ spec.platform ≠ w.platform then
    Except.error WorkerError.incompatiblePlatform
  else if tagsMatch w spec.tags = false then Except.error WorkerError.mismatchedTags
  else Except.ok w

/-! ## Container provider (`FindOrCreateContainer`) -/

/-- The fixed retry delay (`creatingContainerRetryDelay = 1 * time.Second`),
in seconds. -/
def creatingContainerRetryDelay : Nat := 1

/-- A `db.CreatingContainer` record: its handle and its id (the lock key). -/
structure CreatingC where
  handle : String
  id : Nat
deriving DecidableEq, Repr

/-- A `db.CreatedContainer` record: its handle. -/
structure CreatedC where
  handle : String
deriving DecidableEq, Repr

/-- The result of a garden `Lookup` by handle: a container was found, a
`garden.ContainerNotFoundError` occurred, or some other error occurred. -/
inductive GLookup where
  | found : GLookup
  | notFound : GLookup
  | err : Nat → GLookup
deriving DecidableEq, Repr

/-- The environment of collaborator oracles consulted by one
`FindOrCreateContainer` attempt: each field is the outcome the named
collaborator call would produce during this attempt. Error payloads are
opaque `Nat` codes. -/
structure Env where
  dbFind : Except Nat (Option CreatingC × Option CreatedC)
  dbCreate : Except Nat CreatingC
  gardenLookup : String → GLookup
  lockAcquire : Except Nat Bool
  fetchImage : Except Nat Unit
  gardenCreate : Except Nat Unit
  markCreated : Except Nat CreatedC
  gardenDestroy : Except Nat Unit
  findVolumes : Except Nat Unit

/-- Where a fatal error of `FindOrCreateContainer` came from, with its
payload. `gardenLookupNotFound` is the created-container fast path
returning garden's not-found error unconverted. -/
inductive FOCError where
  | dbFind : Nat → FOCError
  | dbCreate : Nat → FOCError
  | gardenLookupNotFound : FOCError
  | gardenLookup : Nat → FOCError
  | lock : Nat → FOCError
  | fetch : Nat → FOCError
  | gardenCreate : Nat → FOCError
  | markCreated : Nat → FOCError
  | findVolumes : Nat → FOCError
deriving DecidableEq, Repr

/-- The three-valued result of `FindOrCreateContainer`: a container (by
handle), the `(nil, nil)` deferred-retry sentinel, or an error. -/
inductive FOCOutcome where
  | ok : String → FOCOutcome
  | retry : FOCOutcome
  | fail : FOCError → FOCOutcome
deriving DecidableEq, Repr

/-- The observable result of one attempt: the outcome, how long the attempt
slept (`time.Sleep`), which handle it destroyed (`gardenClient.Destroy`),
and whether it tried to acquire the creating lock. -/
structure FOCResult where
  outcome : FOCOutcome
  slept : Option Nat
  destroyed : Option String
  lockAttempted : Bool
deriving DecidableEq, Repr

/-- The tail of `FindOrCreateContainer` shared by the recovery and creation
paths: transition the record to created (destroying the garden container,
best-effort, if that fails), then construct the worker container (which
looks up the container's volumes). -/
def finishCreation (env : Env) (creating : CreatingC) (lockAttempted : Bool) : FOCResult :=
  match env.markCreated with
  | Except.error e => ⟨FOCOutcome.fail (FOCError.markCreated e), none, some creating.handle, lockAttempted⟩
  | Except.ok created =>
    match env.findVolumes with
    | Except.error e => ⟨FOCOutcome.fail (FOCError.findVolumes e), none, none, lockAttempted⟩
    | Except.ok _ => ⟨FOCOutcome.ok created.handle, none, none, lockAttempted⟩

/-- `containerProvider.FindOrCreateContainer` as a pure function of the
collaborator oracles, following the source's control flow exactly. The
`gardenDestroy` oracle is never consulted: the destroy's own error is
discarded by the source. -/
def findOrCreateContainer (env : Env) : FOCResult :=
  match env.dbFind with
  | Except.error e => ⟨FOCOutcome.fail (FOCError.dbFind e), none, none, false⟩
  | Except.ok (creatingOpt, createdOpt) =>
    match createdOpt with
    | some created =>
      match env.gardenLookup created.handle with
      | GLookup.notFound => ⟨FOCOutcome.fail FOCError.gardenLookupNotFound, none, none, false⟩
      | GLookup.err e => ⟨FOCOutcome.fail (FOCError.gardenLookup e), none, none, false⟩
      | GLookup.found =>
        match env.findVolumes with
        | Except.error e => ⟨FOCOutcome.fail (FOCError.findVolumes e), none, none, false⟩
        | Except.ok _ => ⟨FOCOutcome.ok created.handle, none, none, false⟩
    | none =>
      match (match creatingOpt with
             | some c => Except.ok c
             | none => env.dbCreate) with
      | Except.error e => ⟨FOCOutcome.fail (FOCError.dbCreate e), none, none, false⟩
      | Except.ok creating =>
        match env.gardenLookup creating.handle with
        | GLookup.err e => ⟨FOCOutcome.fail (FOCError.gardenLookup e), none, none, false⟩
        | GLookup.found => finishCreation env creating false
        | GLookup.notFound =>
          match env.lockAcquire with
          | Except.error e => ⟨FOCOutcome.fail (FOCError.lock e), none, none, true⟩
          | Except.ok false => ⟨FOCOutcome.retry, some creatingContainerRetryDelay, none, true⟩
          | Except.ok true =>
            match env.fetchImage with
            | Except.error e => ⟨FOCOutcome.fail (FOCError.fetch e), none, none, true⟩
            | Except.ok _ =>
              match env.gardenCreate with
              | Except.error e => ⟨FOCOutcome.fail (FOCError.gardenCreate e), none, none, true⟩
              | Except.ok _ => finishCreation env creating true

/-! ## Version compatibility (`IsVersionCompatible`) -/

/-- Parse one release component: a non-empty all-digit segment. (The
underlying semi-semantic version library also admits alphanumeric
components; worker versions use numeric ones, which is what this model
covers.) -/
def parseComponent (s : List Char) : Option Nat :=
  if s ≠ [] ∧ s.all Char.isDigit then
    some (s.foldl (fun n c => n * 10 + (c.toNat - 48)) 0)
  else none

/-- The release part of a semi-semantic version string: everything before the
first `'-'` (pre-release) or `'+'` (post-release) separator. -/
def releaseChars (s : List Char) : List Char :=
  s.takeWhile (fun c => !(c == '-' || c == '+'))

/-- Parse the release of a version string into its numeric components;
`none` models `NewVersionFromString` failing. -/
def parseRelease (s : String) : Option (List Nat) :=
  (splitOnChar '.' [] (releaseChars s.data)).mapM parseComponent

/-- Component-wise comparison of release segments (a strict prefix is
smaller). -/
def releaseCompare : List Nat → List Nat → Ordering
  | [], [] => Ordering.eq
  | [], _ :: _ => Ordering.lt
  | _ :: _, [] => Ordering.gt
  | a :: as, b :: bs =>
    match compare a b with
    | Ordering.eq => releaseCompare as bs
    | o => o

/-- Go `IsVersionCompatible`: missing or unparsable worker version is
incompatible; equal release is compatible; a strictly older worker release
is incompatible; a strictly newer worker release is compatible exactly when
the leading release components agree. -/
def IsVersionCompatible (w : GWorker) (comparedVersion : List Nat) : Bool :=
  match w.version with
  | none => false
  | some s =>
    match parseRelease s with
    | none => false
    | some rel =>
      match releaseCompare rel comparedVersion with
      | Ordering.eq => true
      | Ordering.lt => false
      | Ordering.gt => rel.head? == comparedVersion.head?

end ConcourseWorker

namespace ConcourseWorker

/-! ## Helper lemmas for the type-chain resolution loop -/

theorem resolveLoop_eq (m : List (String × String)) (ty : String) :
    resolveLoop m ty =
      match mapLookup m ty with
      | none => ty
      | some ty2 => resolveLoop (mapErase m ty) ty2 := by
  rw [resolveLoop.eq_def]
  cases hl : mapLookup m ty <;> simp

theorem resolveLoopFuel_sound :
    ∀ (n : Nat) (m : List (String × String)) (ty r : String),
      resolveLoopFuel n m ty = some r → resolveLoop m ty = r := by
  intro n
  induction n with
  | zero => intro m ty r h; simp [resolveLoopFuel] at h
  | succ n ih =>
    intro m ty r h
    rw [resolveLoop_eq]
    simp only [resolveLoopFuel] at h
    cases hl : mapLookup m ty with
    | none =>
      rw [hl] at h
      simp only [Option.some.injEq] at h
      simp [h]
    | some ty2 =>
      rw [hl] at h
      exact ih _ _ _ h

theorem resolveLoopFuel_complete :
    ∀ (n : Nat) (m : List (String × String)) (ty : String), m.length < n →
      resolveLoopFuel n m ty = some (resolveLoop m ty) := by
  intro n
  induction n with
  | zero => intro m ty h; omega
  | succ n ih =>
    intro m ty h
    rw [resolveLoop_eq]
    cases hl : mapLookup m ty with
    | none => simp [resolveLoopFuel, hl]
    | some ty2 =>
      have hlt := mapErase_length_lt m ty hl
      simp only [resolveLoopFuel, hl]
      exact ih (mapErase m ty) ty2 (by omega)

theorem mapInsert_length_le (m : List (String × String)) (k v : String) :
    (mapInsert m k v).length ≤ m.length + 1 := by
  simpa [mapInsert] using mapErase_length_le m k

theorem buildResourceTypesMap_length_aux (l : List VersionedResourceType) :
    ∀ m : List (String × String),
      (l.foldl (fun m rt => mapInsert m rt.name rt.type) m).length ≤ m.length + l.length := by
  induction l with
  | nil => intro m; simp
  | cons rt rest ih =>
    intro m
    calc (rest.foldl (fun m rt => mapInsert m rt.name rt.type) (mapInsert m rt.name rt.type)).length
        ≤ (mapInsert m rt.name rt.type).length + rest.length := ih _
      _ ≤ m.length + 1 + rest.length := by
          exact Nat.add_le_add_right (mapInsert_length_le m rt.name rt.type) _
      _ = m.length + (rt :: rest).length := by simp; omega

theorem buildResourceTypesMap_length (l : List VersionedResourceType) :
    (buildResourceTypesMap l).length ≤ l.length := by
  simpa [buildResourceTypesMap] using buildResourceTypesMap_length_aux l []

end ConcourseWorker

namespace ConcourseWorker

/-! ## C10: termination of type-chain resolution -/

theorem any_type_eq_false_iff (w : GWorker) (r : String) :
    (w.resourceTypes.any (fun t => t.type == r)) = false ↔
      ¬ ∃ t ∈ w.resourceTypes, t.type = r := by
  rw [← Bool.not_eq_true, List.any_eq_true]
  simp

/-- C10: type-chain resolution terminates on every catalog — including
self-referential and cyclic "built from" chains — within `|catalog| + 1`
substitution steps (each successful substitution consumes a catalog entry
that is never revisited); and, when a resource type is requested and the
team check passes, the matcher rejects with `unsupportedResourceType`
exactly when no worker catalog entry's base type equals the resolved name,
while returning the worker implies such an entry exists. -/
theorem C10_type_chain_terminates (w : GWorker) (spec : WorkerSpec)
    (hrt : spec.resourceType ≠ "")
    (hteam : ¬(spec.teamID ≠ w.teamID ∧ w.teamID ≠ 0)) :
    (∀ (typeName : String) (catalog : List VersionedResourceType),
      determineUnderlyingTypeNameFuel (catalog.length + 1) typeName catalog
        = some (determineUnderlyingTypeName typeName catalog)) ∧
    ((satisfying w spec = Except.error WorkerError.unsupportedResourceType) ↔
      ¬ ∃ t ∈ w.resourceTypes,
          t.type = determineUnderlyingTypeName spec.resourceType spec.resourceTypes) ∧
    (satisfying w spec = Except.ok w →
      ∃ t ∈ w.resourceTypes,
          t.type = determineUnderlyingTypeName spec.resourceType spec.resourceTypes) := by
  refine ⟨?_, ?_, ?_⟩
  · intro typeName catalog
    unfold determineUnderlyingTypeNameFuel determineUnderlyingTypeName
    cases hl : mapLookup (buildResourceTypesMap catalog) typeName with
    | none => simp [hl]
    | some ty =>
      simp only [hl]
      exact resolveLoopFuel_complete _ _ _
        (Nat.lt_succ_of_le (buildResourceTypesMap_length catalog))
  · unfold satisfying
    rw [if_neg hteam]
    by_cases hany : (w.resourceTypes.any
        (fun t => t.type == determineUnderlyingTypeName spec.resourceType spec.resourceTypes))
        = false
    · rw [if_pos ⟨hrt, hany⟩]
      simp [(any_type_eq_false_iff w _).mp hany]
    · rw [if_neg (fun hc => hany hc.2)]
      have hex := not_not.mp (fun hne => hany ((any_type_eq_false_iff w _).mpr hne))
      split_ifs <;> simp [hex]
  · intro hok
    by_contra hne
    have hany := (any_type_eq_false_iff w _).mpr hne
    unfold satisfying at hok
    rw [if_neg hteam, if_pos ⟨hrt, hany⟩] at hok
    exact Except.noConfusion hok

/-- Witness for C10: a concrete cyclic catalog resolves within the fuel
bound, and a concrete worker is matched. -/
theorem C10_witness :
    determineUnderlyingTypeNameFuel 3 "a" [⟨"a", "b"⟩, ⟨"b", "a"⟩]
        = some (determineUnderlyingTypeName "a" [⟨"a", "b"⟩, ⟨"b", "a"⟩]) ∧
    (satisfying ⟨5, [⟨"git", "img"⟩], "linux", [], none⟩ ⟨5, "git", "", [], []⟩
        = Except.ok ⟨5, [⟨"git", "img"⟩], "linux", [], none⟩ →
      ∃ t ∈ [(⟨"git", "img"⟩ : WorkerResourceType)], t.type = determineUnderlyingTypeName "git" []) := by
  refine ⟨?_, ?_⟩
  · exact (C10_type_chain_terminates ⟨5, [], "", [], none⟩ ⟨5, "x", "", [], []⟩
      (by decide) (by simp)).1 "a" [⟨"a", "b"⟩, ⟨"b", "a"⟩]
  · exact (C10_type_chain_terminates ⟨5, [⟨"git", "img"⟩], "linux", [], none⟩
      ⟨5, "git", "", [], []⟩ (by decide) (by simp)).2.2

end ConcourseWorker

namespace ConcourseWorker

/-! ## C1: the tag rule -/

/-- C1 (counterexample): a worker with tags rejects a spec requesting no
tags (`MismatchedTags`), contradicting the claim that a spec with no tags
is accepted by a tagged worker; and an untagged worker rejects a spec that
does request tags, contradicting the claim that a worker with no tags
accepts any requested spec tags. -/
theorem C1_counterexample :
    satisfying ⟨5, [], "linux", ["gpu"], none⟩ ⟨5, "", "linux", [], []⟩
        = Except.error WorkerError.mismatchedTags ∧
    satisfying ⟨5, [], "linux", [], none⟩ ⟨5, "", "linux", ["gpu"], []⟩
        = Except.error WorkerError.mismatchedTags := by
  exact ⟨rfl, rfl⟩

/-- C1 (amended): every requested tag must be among the worker's tags, and a
worker with tags additionally requires the spec to request at least one tag
(so a tagged worker rejects an empty request, and an untagged worker
accepts exactly the empty request); when the earlier team, resource-type
and platform checks pass, a violation makes `Satisfying` return
`MismatchedTags` and a satisfied rule makes it return the worker. -/
theorem C1_tags_rule (w : GWorker) (spec : WorkerSpec)
    (hteam : ¬(spec.teamID ≠ w.teamID ∧ w.teamID ≠ 0))
    (hrt : spec.resourceType = "")
    (hplat : spec.platform = "") :
    (tagsMatch w spec.tags = true ↔
      ((∀ t ∈ spec.tags, t ∈ w.tags) ∧ (w.tags ≠ [] → spec.tags ≠ []))) ∧
    (satisfying w spec = Except.error WorkerError.mismatchedTags ↔
      tagsMatch w spec.tags = false) ∧
    (tagsMatch w spec.tags = true → satisfying w spec = Except.ok w) := by
  have hsat : satisfying w spec =
      if tagsMatch w spec.tags = false then Except.error WorkerError.mismatchedTags
      else Except.ok w := by
    unfold satisfying
    rw [if_neg hteam, if_neg (fun hc => hc.1 hrt), if_neg (fun hc => hc.1 hplat)]
  have htm : tagsMatch w spec.tags = true ↔
      ((∀ t ∈ spec.tags, t ∈ w.tags) ∧ (w.tags ≠ [] → spec.tags ≠ [])) := by
    unfold tagsMatch
    cases hw : w.tags with
    | nil =>
      simp [List.all_eq_true]
    | cons a as =>
      cases hs : spec.tags with
      | nil => simp
      | cons b bs =>
        simp only [List.length_cons, List.length_nil]
        simp [List.all_eq_true, List.any_eq_true, ← hw]
  refine ⟨htm, ?_, ?_⟩
  · rw [hsat]
    cases htv : tagsMatch w spec.tags <;> simp
  · intro ht
    rw [hsat, if_neg (by simp [ht])]

/-- Witness for C1 at concrete inputs: a tagged worker with a matching
requested tag passes the rule and is returned. -/
theorem C1_witness :
    tagsMatch ⟨5, [], "linux", ["gpu", "fast"], none⟩ ["gpu"] = true ∧
    satisfying ⟨5, [], "linux", ["gpu", "fast"], none⟩ ⟨5, "", "", ["gpu"], []⟩
        = Except.ok ⟨5, [], "linux", ["gpu", "fast"], none⟩ := by
  have h := C1_tags_rule ⟨5, [], "linux", ["gpu", "fast"], none⟩ ⟨5, "", "", ["gpu"], []⟩
    (by simp) rfl rfl
  have ht : tagsMatch ⟨5, [], "linux", ["gpu", "fast"], none⟩ ["gpu"] = true := by decide
  exact ⟨ht, h.2.2 ht⟩

/-! ## C2: version compatibility -/

/-- C2 (counterexample): worker version `4.0` against required version
`4.1` has equal leading release components, yet `IsVersionCompatible`
returns `false` (the worker's release is older), contradicting the claim
that a leading-component match suffices whenever later components differ. -/
theorem C2_counterexample :
    parseRelease "4.0" = some [4, 0] ∧
    List.head? [4, 0] = List.head? [4, 1] ∧
    IsVersionCompatible ⟨0, [], "", [], some "4.0"⟩ [4, 1] = false := by
  exact ⟨by decide, rfl, by decide⟩

/-- C2 (amended): `IsVersionCompatible` is true exactly when the worker has
a parsable version whose release either equals the required release, or is
strictly newer with the same leading release component; in particular an
older worker release is incompatible even when the leading components
match, and a missing or unparsable version is incompatible. -/
theorem C2_version_rule (w : GWorker) (req : List Nat) :
    IsVersionCompatible w req = true ↔
      ∃ s rel, w.version = some s ∧ parseRelease s = some rel ∧
        (releaseCompare rel req = Ordering.eq ∨
          (releaseCompare rel req = Ordering.gt ∧ rel.head? = req.head?)) := by
  unfold IsVersionCompatible
  cases hv : w.version with
  | none => simp
  | some s =>
    cases hp : parseRelease s with
    | none => simp [hp]
    | some rel =>
      cases hc : releaseCompare rel req <;> simp [hp, hc]

end ConcourseWorker

namespace ConcourseWorker

/-! ## C4-C7: the find-or-create state machine -/

/-- C4: when the DB returns an existing `CreatedContainer`, the runtime
lookup must succeed: a not-found lookup and any other lookup error are both
returned as fatal errors (never converted to a not-found or retry result),
and on lookup success the container is wrapped and returned; the creating
lock is never attempted on this fast path. -/
theorem C4_created_fast_path (env : Env) (co : Option CreatingC) (c : CreatedC)
    (hdb : env.dbFind = Except.ok (co, some c)) :
    (env.gardenLookup c.handle = GLookup.notFound →
      (findOrCreateContainer env).outcome = FOCOutcome.fail FOCError.gardenLookupNotFound) ∧
    (∀ e, env.gardenLookup c.handle = GLookup.err e →
      (findOrCreateContainer env).outcome = FOCOutcome.fail (FOCError.gardenLookup e)) ∧
    (env.gardenLookup c.handle = GLookup.found → env.findVolumes = Except.ok () →
      (findOrCreateContainer env).outcome = FOCOutcome.ok c.handle) ∧
    (findOrCreateContainer env).lockAttempted = false := by
  unfold findOrCreateContainer
  rw [hdb]
  cases hg : env.gardenLookup c.handle with
  | notFound => simp [hg]
  | err e => simp [hg]
  | found =>
    simp only [hg]
    cases hf : env.findVolumes with
    | error e => simp [hf]
    | ok u => simp [hf]

/-- Concrete environment for the C4 witness: a created record whose handle
the runtime lookup finds. -/
def envC4 : Env :=
  ⟨Except.ok (none, some ⟨"h1"⟩), Except.ok ⟨"h2", 7⟩, fun _ => GLookup.found,
    Except.ok true, Except.ok (), Except.ok (), Except.ok ⟨"h1"⟩, Except.ok (), Except.ok ()⟩

/-- Witness for C4 at `envC4`. -/
theorem C4_witness :
    (findOrCreateContainer envC4).outcome = FOCOutcome.ok "h1" ∧
    (findOrCreateContainer envC4).lockAttempted = false :=
  ⟨(C4_created_fast_path envC4 none ⟨"h1"⟩ rfl).2.2.1 rfl rfl,
   (C4_created_fast_path envC4 none ⟨"h1"⟩ rfl).2.2.2⟩

/-- C5: when no created record exists, a creating record is at hand, the
runtime has no container for its handle, and the creating lock is not
acquired, `FindOrCreateContainer` sleeps for the fixed 1-second retry delay
and returns the deferred-retry sentinel (`nil` container and `nil` error),
distinct from both success and failure. -/
theorem C5_deferred_retry (env : Env) (co : Option CreatingC) (creating : CreatingC)
    (hdb : env.dbFind = Except.ok (co, none))
    (hcr : co = some creating ∨ (co = none ∧ env.dbCreate = Except.ok creating))
    (hlk : env.gardenLookup creating.handle = GLookup.notFound)
    (hacq : env.lockAcquire = Except.ok false) :
    findOrCreateContainer env
        = ⟨FOCOutcome.retry, some creatingContainerRetryDelay, none, true⟩ ∧
    creatingContainerRetryDelay = 1 := by
  refine ⟨?_, rfl⟩
  unfold findOrCreateContainer
  rw [hdb]
  rcases hcr with hcr | ⟨hcr, hc2⟩
  · rw [hcr]; simp [hlk, hacq]
  · rw [hcr]; simp [hc2, hlk, hacq]

/-- Concrete environment for the C5 witness: a creating record exists, the
runtime has nothing for it, and the lock is declined. -/
def envC5 : Env :=
  ⟨Except.ok (some ⟨"h3", 9⟩, none), Except.error 0, fun _ => GLookup.notFound,
    Except.ok false, Except.ok (), Except.ok (), Except.error 1, Except.ok (), Except.ok ()⟩

/-- Witness for C5 at `envC5`. -/
theorem C5_witness :
    findOrCreateContainer envC5 = ⟨FOCOutcome.retry, some 1, none, true⟩ :=
  (C5_deferred_retry envC5 (some ⟨"h3", 9⟩) ⟨"h3", 9⟩ rfl (Or.inl rfl) rfl rfl).1

/-- C6: on the creation path (a creating record at hand), the runtime
lookup of its handle treats not-found as expected and non-fatal — creation
proceeds, and when every later step succeeds the container is returned —
while any other lookup error aborts the attempt and is returned. -/
theorem C6_creating_lookup (env : Env) (co : Option CreatingC) (creating : CreatingC)
    (hdb : env.dbFind = Except.ok (co, none))
    (hcr : co = some creating ∨ (co = none ∧ env.dbCreate = Except.ok creating)) :
    (∀ e, env.gardenLookup creating.handle = GLookup.err e →
      (findOrCreateContainer env).outcome = FOCOutcome.fail (FOCError.gardenLookup e) ∧
      (findOrCreateContainer env).lockAttempted = false) ∧
    (env.gardenLookup creating.handle = GLookup.notFound →
      env.lockAcquire = Except.ok true → env.fetchImage = Except.ok () →
      env.gardenCreate = Except.ok () → ∀ cc, env.markCreated = Except.ok cc →
      env.findVolumes = Except.ok () →
      (findOrCreateContainer env).outcome = FOCOutcome.ok cc.handle) := by
  constructor
  · intro e hg
    unfold findOrCreateContainer
    rw [hdb]
    rcases hcr with hcr | ⟨hcr, hc2⟩
    · rw [hcr]; simp [hg]
    · rw [hcr]; simp [hc2, hg]
  · intro hg hl hf hgc cc hmk hfv
    unfold findOrCreateContainer
    rw [hdb]
    rcases hcr with hcr | ⟨hcr, hc2⟩
    · rw [hcr]; simp [hg, hl, hf, hgc, finishCreation, hmk, hfv]
    · rw [hcr]; simp [hc2, hg, hl, hf, hgc, finishCreation, hmk, hfv]

/-- Concrete environment for the C6 witness: the full creation path
succeeds. -/
def envC6 : Env :=
  ⟨Except.ok (none, none), Except.ok ⟨"h4", 2⟩, fun _ => GLookup.notFound,
    Except.ok true, Except.ok (), Except.ok (), Except.ok ⟨"h4"⟩, Except.ok (), Except.ok ()⟩

/-- Witness for C6 at `envC6`. -/
theorem C6_witness :
    (findOrCreateContainer envC6).outcome = FOCOutcome.ok "h4" :=
  (C6_creating_lookup envC6 none ⟨"h4", 2⟩ rfl (Or.inr ⟨rfl, rfl⟩)).2
    rfl rfl rfl rfl ⟨"h4"⟩ rfl rfl

/-- C7: if the runtime container exists (recovered or just created) but the
transition of the record to `CreatedContainer` fails, the attempt destroys
the runtime container by the creating record's handle as a compensating
action and propagates the transition error; the destroy's own result is
ignored (replacing it changes nothing). -/
theorem C7_commit_failure_compensation (env : Env) (co : Option CreatingC)
    (creating : CreatingC) (e : Nat)
    (hdb : env.dbFind = Except.ok (co, none))
    (hcr : co = some creating ∨ (co = none ∧ env.dbCreate = Except.ok creating))
    (hmk : env.markCreated = Except.error e)
    (hpath : env.gardenLookup creating.handle = GLookup.found ∨
      (env.gardenLookup creating.handle = GLookup.notFound ∧
        env.lockAcquire = Except.ok true ∧ env.fetchImage = Except.ok () ∧
        env.gardenCreate = Except.ok ())) :
    (findOrCreateContainer env).outcome = FOCOutcome.fail (FOCError.markCreated e) ∧
    (findOrCreateContainer env).destroyed = some creating.handle ∧
    (∀ d, findOrCreateContainer
        ⟨env.dbFind, env.dbCreate, env.gardenLookup, env.lockAcquire, env.fetchImage,
          env.gardenCreate, env.markCreated, d, env.findVolumes⟩
      = findOrCreateContainer env) := by
  have hmain : findOrCreateContainer env
      = ⟨FOCOutcome.fail (FOCError.markCreated e), none, some creating.handle,
          decide (env.gardenLookup creating.handle = GLookup.notFound)⟩ := by
    unfold findOrCreateContainer
    rw [hdb]
    rcases hpath with hg | ⟨hg, hl, hf, hgc⟩
    · rcases hcr with hcr | ⟨hcr, hc2⟩
      · rw [hcr]; simp [hg, finishCreation, hmk]
      · rw [hcr]; simp [hc2, hg, finishCreation, hmk]
    · rcases hcr with hcr | ⟨hcr, hc2⟩
      · rw [hcr]; simp [hg, hl, hf, hgc, finishCreation, hmk]
      · rw [hcr]; simp [hc2, hg, hl, hf, hgc, finishCreation, hmk]
  refine ⟨by rw [hmain], by rw [hmain], ?_⟩
  intro d
  cases env
  rfl

/-- Concrete environment for the C7 witness: creation succeeds but the
created-transition fails. -/
def envC7 : Env :=
  ⟨Except.ok (some ⟨"h5", 3⟩, none), Except.error 0, fun _ => GLookup.notFound,
    Except.ok true, Except.ok (), Except.ok (), Except.error 42, Except.error 7, Except.ok ()⟩

/-- Witness for C7 at `envC7`. -/
theorem C7_witness :
    (findOrCreateContainer envC7).outcome = FOCOutcome.fail (FOCError.markCreated 42) ∧
    (findOrCreateContainer envC7).destroyed = some "h5" :=
  ⟨(C7_commit_failure_compensation envC7 (some ⟨"h5", 3⟩) ⟨"h5", 3⟩ 42 rfl (Or.inl rfl) rfl
      (Or.inr ⟨rfl, rfl, rfl, rfl⟩)).1,
   (C7_commit_failure_compensation envC7 (some ⟨"h5", 3⟩) ⟨"h5", 3⟩ 42 rfl (Or.inl rfl) rfl
      (Or.inr ⟨rfl, rfl, rfl, rfl⟩)).2.1⟩

end ConcourseWorker

namespace ConcourseWorker

/-! ## C9: shape and order of the assembled mount list -/

theorem hasWorkdirVolume_iff (spec : ContainerSpec) :
    hasWorkdirVolume spec = true ↔
      (spec.dir ≠ "" ∧
        anyMountTo spec.dir (getDestinationPathsFromInputs spec.inputs) = false ∧
        anyMountTo spec.dir (getDestinationPathsFromOutputs spec.outputs) = false) := by
  simp only [hasWorkdirVolume, Bool.and_eq_true, Bool.not_eq_true', bne_iff_ne, ne_eq]
  tauto

/-- C9: the assembled mount list always has the fixed, deterministic shape:
the scratch mount first, then the working-directory mount exactly when the
working directory is non-empty and not already an input or output
destination, then the input/output-derived mounts (a permutation of them)
in nondecreasing mount-path order. -/
theorem C9_mount_order (spec : ContainerSpec) :
    ∃ w t, planMounts spec = scratchMount :: (w ++ t) ∧
      (w = [] ∨ w = [⟨Volume.workdir, spec.dir⟩]) ∧
      (w ≠ [] ↔ (spec.dir ≠ "" ∧
        anyMountTo spec.dir (getDestinationPathsFromInputs spec.inputs) = false ∧
        anyMountTo spec.dir (getDestinationPathsFromOutputs spec.outputs) = false)) ∧
      List.Sorted mountLE t ∧ t.Perm (ioMounts spec) := by
  refine ⟨workdirMounts spec, List.insertionSort mountLE (ioMounts spec), rfl, ?_, ?_,
    List.sorted_insertionSort mountLE (ioMounts spec),
    List.perm_insertionSort mountLE (ioMounts spec)⟩
  · unfold workdirMounts; split_ifs <;> simp
  · rw [← hasWorkdirVolume_iff]
    unfold workdirMounts
    split_ifs with h <;> simp [h]

/-! ## Path and volume lemmas for the mount plan -/

theorem inputMountsFrom_map_path (l : List InputSource) :
    ∀ idx, (inputMountsFrom idx l).map VolumeMount.mountPath = inputDestinationPaths l := by
  induction l with
  | nil => intro idx; rfl
  | cons i rest ih =>
    intro idx
    simp [inputMountsFrom, inputDestinationPaths] at ih ⊢
    exact ih (idx + 1)

theorem outputMounts_map_path (spec : ContainerSpec) :
    (outputMounts spec).map VolumeMount.mountPath =
      (spec.outputs.filter
        (fun o => !((inputDestinationPaths spec.inputs).contains (clean o)))).map clean := by
  simp [outputMounts, List.map_map]

theorem ioMounts_map_path (spec : ContainerSpec) :
    (ioMounts spec).map VolumeMount.mountPath =
      inputDestinationPaths spec.inputs ++
        (spec.outputs.filter
          (fun o => !((inputDestinationPaths spec.inputs).contains (clean o)))).map clean := by
  simp [ioMounts, inputMounts, inputMountsFrom_map_path, outputMounts_map_path]

theorem planMounts_map_path_perm (spec : ContainerSpec) :
    ((planMounts spec).map VolumeMount.mountPath).Perm
      ("/scratch" :: (workdirMounts spec).map VolumeMount.mountPath ++
        ((ioMounts spec).map VolumeMount.mountPath)) := by
  unfold planMounts
  simp only [List.map_cons, List.map_append, List.cons_append]
  exact List.Perm.cons _ (List.Perm.append_left _
    ((List.perm_insertionSort mountLE (ioMounts spec)).map VolumeMount.mountPath))

theorem mem_inputDestinationPaths (inputs : List InputSource) (p : String) :
    p ∈ inputDestinationPaths inputs ↔ ∃ i ∈ inputs, clean i.destinationPath = p := by
  simp [inputDestinationPaths, eq_comm]

theorem contains_eq_false_iff (l : List String) (x : String) :
    l.contains x = false ↔ x ∉ l := by
  rw [← Bool.not_eq_true]
  simp [List.contains_iff_exists_mem_beq]

theorem anyMountTo_eq_false_iff (path : String) (paths : List String) :
    anyMountTo path paths = false ↔ ∀ d ∈ paths, clean d ≠ clean path := by
  rw [← Bool.not_eq_true]
  simp [anyMountTo, List.any_eq_true]

end ConcourseWorker

namespace ConcourseWorker

/-! ## C3: distinct mount destinations -/

theorem planMounts_map_volume_perm (spec : ContainerSpec) :
    ((planMounts spec).map VolumeMount.volume).Perm
      (Volume.scratch :: (workdirMounts spec).map VolumeMount.volume ++
        ((ioMounts spec).map VolumeMount.volume)) := by
  unfold planMounts
  simp only [List.map_cons, List.map_append, List.cons_append]
  exact List.Perm.cons _ (List.Perm.append_left _
    ((List.perm_insertionSort mountLE (ioMounts spec)).map VolumeMount.volume))

theorem output_not_mem_inputMountsFrom (l : List InputSource) (p : String) :
    ∀ idx, Volume.output p ∉ (inputMountsFrom idx l).map VolumeMount.volume := by
  induction l with
  | nil => intro idx; simp [inputMountsFrom]
  | cons i rest ih =>
    intro idx
    simp only [inputMountsFrom, List.map_cons, List.mem_cons]
    rintro (h | h)
    · unfold inputVolume at h
      split_ifs at h
    · exact ih (idx + 1) h

theorem output_not_mem_inputMounts (l : List InputSource) (p : String) :
    Volume.output p ∉ (inputMounts l).map VolumeMount.volume :=
  output_not_mem_inputMountsFrom l p 0

theorem output_volume_not_in_plan (spec : ContainerSpec) (p : String)
    (hp : p ∈ inputDestinationPaths spec.inputs) :
    Volume.output p ∉ (planMounts spec).map VolumeMount.volume := by
  intro hmem
  rw [(planMounts_map_volume_perm spec).mem_iff] at hmem
  simp only [List.cons_append, List.mem_cons, List.mem_append] at hmem
  rcases hmem with h | h
  · exact Volume.noConfusion h
  rcases h with h | h
  · unfold workdirMounts at h
    split_ifs at h <;> simp at h
  · rw [ioMounts, List.map_append, List.mem_append] at h
    rcases h with h | h
    · exact output_not_mem_inputMounts spec.inputs p h
    · rcases List.mem_map.mp h with ⟨m, hm, hmv⟩
      rcases List.mem_map.mp hm with ⟨o2, ho2, rfl⟩
      simp only [Volume.output.injEq] at hmv
      rcases List.mem_filter.mp ho2 with ⟨_, hq⟩
      have hni := (contains_eq_false_iff _ _).mp (by simpa using hq)
      exact hni (hmv ▸ hp)

theorem mem_outFiltered (spec : ContainerSpec) (p : String)
    (h : p ∈ (spec.outputs.filter
        (fun o => !((inputDestinationPaths spec.inputs).contains (clean o)))).map clean) :
    ∃ o ∈ spec.outputs, clean o = p ∧ clean o ∉ inputDestinationPaths spec.inputs := by
  rcases List.mem_map.mp h with ⟨o, ho, rfl⟩
  rcases List.mem_filter.mp ho with ⟨ho1, ho2⟩
  refine ⟨o, ho1, rfl, (contains_eq_false_iff _ _).mp ?_⟩
  simpa using ho2

theorem outFiltered_nodup (spec : ContainerSpec)
    (hout : (spec.outputs.map clean).Nodup) :
    ((spec.outputs.filter
        (fun o => !((inputDestinationPaths spec.inputs).contains (clean o)))).map clean).Nodup :=
  hout.sublist ((List.filter_sublist spec.outputs).map clean)

theorem workdir_path_not_io (spec : ContainerSpec) (p : String)
    (hw : hasWorkdirVolume spec = true)
    (hdir : spec.dir = "" ∨ clean spec.dir = spec.dir)
    (hpin : p ∈ inputDestinationPaths spec.inputs ∨
      (∃ o ∈ spec.outputs, clean o = p)) :
    spec.dir ≠ p := by
  rcases (hasWorkdirVolume_iff spec).mp hw with ⟨hne, hain, haout⟩
  have hcl : clean spec.dir = spec.dir := by
    rcases hdir with h | h
    · exact absurd h hne
    · exact h
  intro hdp
  rcases hpin with hin | ⟨o, ho, hop⟩
  · rcases (mem_inputDestinationPaths _ _).mp hin with ⟨i, hi, hip⟩
    have := (anyMountTo_eq_false_iff _ _).mp hain i.destinationPath
      (List.mem_map_of_mem _ hi)
    rw [hcl, hip] at this
    exact this hdp.symm
  · have := (anyMountTo_eq_false_iff _ _).mp haout o ho
    rw [hcl, hop] at this
    exact this hdp.symm

/-- C3 (counterexample): a spec whose working directory is the scratch path
`/scratch` yields a mount plan in which the scratch mount and the
working-directory mount share the destination `/scratch`, so mount
destinations are not pairwise distinct for every container spec. -/
theorem C3_counterexample :
    ¬ ((planMounts ⟨"/scratch", [], []⟩).map VolumeMount.mountPath).Nodup := by
  decide

/-- C3 (amended): for container specs whose cleaned input destinations are
pairwise distinct, whose cleaned output paths are pairwise distinct, where
no input or output destination cleans to the scratch path `/scratch`, and
whose working directory is empty or an already-clean path different from
`/scratch`, the mount plan's destination paths are pairwise distinct — in
particular no two of scratch, workdir, input, and output mounts share a
destination — and an output whose path equals an input's path is served by
that input's volume: no output volume is allocated at that path. -/
theorem C3_mount_paths_distinct (spec : ContainerSpec)
    (hin : (inputDestinationPaths spec.inputs).Nodup)
    (hout : (spec.outputs.map clean).Nodup)
    (hs1 : "/scratch" ∉ inputDestinationPaths spec.inputs)
    (hs2 : "/scratch" ∉ spec.outputs.map clean)
    (hdir : spec.dir = "" ∨ clean spec.dir = spec.dir)
    (hdirs : spec.dir ≠ "/scratch") :
    ((planMounts spec).map VolumeMount.mountPath).Nodup ∧
    (∀ o ∈ spec.outputs, clean o ∈ inputDestinationPaths spec.inputs →
      Volume.output (clean o) ∉ (planMounts spec).map VolumeMount.volume) := by
  constructor
  · rw [(planMounts_map_path_perm spec).nodup_iff]
    have hio : ((ioMounts spec).map VolumeMount.mountPath).Nodup := by
      rw [ioMounts_map_path, List.nodup_append]
      refine ⟨hin, outFiltered_nodup spec hout, ?_⟩
      intro p hpin hpout
      rcases mem_outFiltered spec p hpout with ⟨o, _, hop, hnot⟩
      exact hnot (hop ▸ hpin)
    have hwio : ∀ p ∈ (workdirMounts spec).map VolumeMount.mountPath,
        p ∉ (ioMounts spec).map VolumeMount.mountPath := by
      intro p hpw hpio
      unfold workdirMounts at hpw
      by_cases hw : hasWorkdirVolume spec = true
      · rw [if_pos hw] at hpw
        simp only [List.map_cons, List.map_nil, List.mem_singleton] at hpw
        subst hpw
        rw [ioMounts_map_path, List.mem_append] at hpio
        refine workdir_path_not_io spec spec.dir hw hdir ?_ rfl
        rcases hpio with h | h
        · exact Or.inl h
        · rcases mem_outFiltered spec _ h with ⟨o, ho, hop, _⟩
          exact Or.inr ⟨o, ho, hop⟩
      · rw [if_neg hw] at hpw
        simp at hpw
    have hsio : "/scratch" ∉ (ioMounts spec).map VolumeMount.mountPath := by
      rw [ioMounts_map_path, List.mem_append]
      rintro (h | h)
      · exact hs1 h
      · rcases mem_outFiltered spec _ h with ⟨o, ho, hop, _⟩
        exact hs2 (hop ▸ List.mem_map_of_mem clean ho)
    have hwn : ((workdirMounts spec).map VolumeMount.mountPath).Nodup := by
      unfold workdirMounts
      split_ifs <;> simp
    refine List.nodup_cons.mpr ⟨?_, List.nodup_append.mpr ⟨hwn, hio, hwio⟩⟩
    intro hmem
    rcases List.mem_append.mp hmem with h | h
    · unfold workdirMounts at h
      split_ifs at h with hw
      · simp only [List.map_cons, List.map_nil, List.mem_singleton] at h
        exact hdirs h.symm
      · simp at h
    · exact hsio h
  · intro o _ hoin
    exact output_volume_not_in_plan spec (clean o) hoin

end ConcourseWorker

namespace ConcourseWorker

/-- Witness for C3 at a concrete spec with distinct destinations. -/
theorem C3_witness :
    ((planMounts ⟨"/w", [⟨"/in", false⟩], ["/out", "/in"]⟩).map VolumeMount.mountPath).Nodup ∧
    (∀ o ∈ (⟨"/w", [⟨"/in", false⟩], ["/out", "/in"]⟩ : ContainerSpec).outputs,
      clean o ∈ inputDestinationPaths [⟨"/in", false⟩] →
      Volume.output (clean o)
        ∉ (planMounts ⟨"/w", [⟨"/in", false⟩], ["/out", "/in"]⟩).map VolumeMount.volume) :=
  C3_mount_paths_distinct ⟨"/w", [⟨"/in", false⟩], ["/out", "/in"]⟩
    (by decide) (by decide) (by decide) (by decide) (Or.inr (by decide)) (by decide)

/-! ## C8: an output path equal to an input path reuses the input's volume -/

theorem mem_inputMountsFrom_get (l : List InputSource) :
    ∀ (idx j : Nat) (hj : j < l.length),
      (⟨inputVolume (idx + j) (l.get ⟨j, hj⟩), clean (l.get ⟨j, hj⟩).destinationPath⟩ :
          VolumeMount) ∈ inputMountsFrom idx l := by
  induction l with
  | nil => intro idx j hj; simp at hj
  | cons i rest ih =>
    intro idx j hj
    cases j with
    | zero => simp [inputMountsFrom]
    | succ j =>
      have hj' : j < rest.length := Nat.lt_of_succ_lt_succ (by simpa using hj)
      have h2 := ih (idx + 1) j hj'
      simp only [inputMountsFrom, List.mem_cons]
      right
      have hidx : idx + (j + 1) = (idx + 1) + j := by omega
      rw [show (i :: rest).get ⟨j + 1, hj⟩ = rest.get ⟨j, hj'⟩ from rfl, hidx]
      exact h2

/-- C8 (counterexample): with two inputs at the same destination `/data`
and an output also at `/data`, the mount plan contains two mounts at that
path, not exactly one, so the claim fails for some container specs. -/
theorem C8_counterexample :
    ((planMounts ⟨"", [⟨"/data", false⟩, ⟨"/data", false⟩], ["/data"]⟩).map
        VolumeMount.mountPath).count "/data" = 2 := by
  decide

end ConcourseWorker

namespace ConcourseWorker

/-! ## Idempotence of `clean` -/

theorem splitOnChar_no_sep (sep : Char) :
    ∀ (s cur : List Char), sep ∉ s → splitOnChar sep cur s = [cur.reverse ++ s] := by
  intro s
  induction s with
  | nil => intro cur _; simp [splitOnChar]
  | cons c cs ih =>
    intro cur hs
    have hc : ¬ c = sep := fun h => hs (h ▸ List.mem_cons_self c cs)
    simp only [splitOnChar, if_neg hc]
    rw [ih (c :: cur) (fun h => hs (List.mem_cons_of_mem c h))]
    simp

theorem splitOnChar_append (sep : Char) :
    ∀ (s t cur : List Char), sep ∉ s →
      splitOnChar sep cur (s ++ sep :: t) = (cur.reverse ++ s) :: splitOnChar sep [] t := by
  intro s
  induction s with
  | nil => intro t cur _; simp [splitOnChar]
  | cons c cs ih =>
    intro t cur hs
    have hc : ¬ c = sep := fun h => hs (h ▸ List.mem_cons_self c cs)
    simp only [List.cons_append, splitOnChar, if_neg hc, List.append_eq]
    rw [ih t (c :: cur) (fun h => hs (List.mem_cons_of_mem c h))]
    simp

theorem splitOnChar_joinSegs :
    ∀ segs : List (List Char), segs ≠ [] → (∀ a ∈ segs, '/' ∉ a) →
      splitOnChar '/' [] (joinSegs segs) = segs := by
  intro segs
  induction segs with
  | nil => intro h _; exact absurd rfl h
  | cons s rest ih =>
    intro _ hall
    cases rest with
    | nil =>
      rw [show joinSegs [s] = s from rfl,
        splitOnChar_no_sep '/' s [] (hall s (List.mem_cons_self s []))]
      simp
    | cons s2 rest2 =>
      rw [show joinSegs (s :: s2 :: rest2) = s ++ '/' :: joinSegs (s2 :: rest2) from rfl,
        splitOnChar_append '/' s (joinSegs (s2 :: rest2)) []
          (hall s (List.mem_cons_self s (s2 :: rest2))),
        ih (by simp) (fun a ha => hall a (List.mem_cons_of_mem s ha))]
      simp

theorem mem_splitOnChar_no_sep (sep : Char) :
    ∀ (s cur : List Char), sep ∉ cur → ∀ a ∈ splitOnChar sep cur s, sep ∉ a := by
  intro s
  induction s with
  | nil =>
    intro cur hcur a ha
    simp only [splitOnChar, List.mem_singleton] at ha
    subst ha
    simpa using hcur
  | cons c cs ih =>
    intro cur hcur a ha
    by_cases hc : c = sep
    · simp only [splitOnChar, if_pos hc] at ha
      rcases List.mem_cons.mp ha with h | h
      · subst h; simpa using hcur
      · exact ih [] (by simp) a h
    · simp only [splitOnChar, if_neg hc] at ha
      refine ih (c :: cur) ?_ a ha
      intro hmem
      rcases List.mem_cons.mp hmem with h | h
      · exact hc h.symm
      · exact hcur h

end ConcourseWorker

namespace ConcourseWorker

theorem processSegs_push_all (rooted : Bool) :
    ∀ (l acc : List (List Char)),
      (∀ a ∈ l, a ≠ [] ∧ a ≠ dotSeg ∧ a ≠ dotDotSeg) →
      processSegs rooted acc l = acc.reverse ++ l := by
  intro l
  induction l with
  | nil => intro acc _; simp [processSegs]
  | cons seg rest ih =>
    intro acc hall
    rcases hall seg (List.mem_cons_self seg rest) with ⟨h1, h2, h3⟩
    simp only [processSegs]
    rw [if_neg (by tauto), if_neg h3,
      ih (seg :: acc) (fun a ha => hall a (List.mem_cons_of_mem seg ha))]
    simp

theorem processSegs_dd_run :
    ∀ (k m : Nat) (rest : List (List Char)),
      (∀ a ∈ rest, a ≠ [] ∧ a ≠ dotSeg ∧ a ≠ dotDotSeg) →
      processSegs false (List.replicate m dotDotSeg) (List.replicate k dotDotSeg ++ rest)
        = List.replicate (m + k) dotDotSeg ++ rest := by
  intro k
  induction k with
  | zero =>
    intro m rest hall
    rw [List.replicate_zero, List.nil_append, Nat.add_zero,
      processSegs_push_all false rest (List.replicate m dotDotSeg) hall,
      List.reverse_replicate]
  | succ k ih =>
    intro m rest hall
    rw [List.replicate_succ, List.cons_append]
    simp only [processSegs]
    rw [if_neg (by decide), if_pos trivial]
    cases m with
    | zero =>
      rw [List.replicate_zero]
      have h1 := ih 1 rest hall
      rw [show List.replicate 1 dotDotSeg = [dotDotSeg] from rfl] at h1
      rw [show (match ([] : List (List Char)) with
        | [] => if false = true then processSegs false [] (List.replicate k dotDotSeg ++ rest)
                else processSegs false [dotDotSeg] (List.replicate k dotDotSeg ++ rest)
        | a :: as =>
          if a = dotDotSeg then
            processSegs false (dotDotSeg :: a :: as) (List.replicate k dotDotSeg ++ rest)
          else processSegs false as (List.replicate k dotDotSeg ++ rest))
        = processSegs false [dotDotSeg] (List.replicate k dotDotSeg ++ rest) from rfl, h1,
        show (0 : Nat) + (k + 1) = 1 + k from by omega]
    | succ m2 =>
      rw [List.replicate_succ]
      rw [show (match dotDotSeg :: List.replicate m2 dotDotSeg with
        | [] => if false = true then processSegs false [] (List.replicate k dotDotSeg ++ rest)
                else processSegs false [dotDotSeg] (List.replicate k dotDotSeg ++ rest)
        | a :: as =>
          if a = dotDotSeg then
            processSegs false (dotDotSeg :: a :: as) (List.replicate k dotDotSeg ++ rest)
          else processSegs false as (List.replicate k dotDotSeg ++ rest))
        = processSegs false (dotDotSeg :: dotDotSeg :: List.replicate m2 dotDotSeg)
            (List.replicate k dotDotSeg ++ rest) from by simp]
      have h1 := ih (m2 + 2) rest hall
      rw [show List.replicate (m2 + 2) dotDotSeg
        = dotDotSeg :: dotDotSeg :: List.replicate m2 dotDotSeg from by
          rw [List.replicate_succ, List.replicate_succ]] at h1
      rw [h1, show m2 + 1 + (k + 1) = m2 + 2 + k from by omega]

end ConcourseWorker

namespace ConcourseWorker

theorem processSegs_wf (rooted : Bool) :
    ∀ (l acc : List (List Char)),
      (∀ a ∈ acc, a ≠ [] ∧ a ≠ dotSeg ∧ '/' ∉ a) →
      (∀ a ∈ l, '/' ∉ a) →
      ∀ a ∈ processSegs rooted acc l, a ≠ [] ∧ a ≠ dotSeg ∧ '/' ∉ a := by
  intro l
  induction l with
  | nil =>
    intro acc hacc _ a ha
    simp only [processSegs, List.mem_reverse] at ha
    exact hacc a ha
  | cons seg rest ih =>
    intro acc hacc hl a ha
    have hlrest : ∀ x ∈ rest, '/' ∉ x := fun x hx => hl x (List.mem_cons_of_mem seg hx)
    by_cases h1 : seg = [] ∨ seg = dotSeg
    · rw [show processSegs rooted acc (seg :: rest) = processSegs rooted acc rest from by
        simp only [processSegs]; rw [if_pos h1]] at ha
      exact ih acc hacc hlrest a ha
    · by_cases h2 : seg = dotDotSeg
      · subst h2
        cases acc with
        | nil =>
          cases rooted with
          | true =>
            rw [show processSegs true [] (dotDotSeg :: rest) = processSegs true [] rest from by
              simp [processSegs, dotSeg, dotDotSeg]] at ha
            exact ih [] (by simp) hlrest a ha
          | false =>
            rw [show processSegs false [] (dotDotSeg :: rest)
                = processSegs false [dotDotSeg] rest from by
                simp [processSegs, dotSeg, dotDotSeg]] at ha
            refine ih [dotDotSeg] ?_ hlrest a ha
            intro x hx
            rw [List.mem_singleton] at hx
            subst hx
            exact ⟨by decide, by decide, by decide⟩
        | cons b bs =>
          by_cases h3 : b = dotDotSeg
          · subst h3
            rw [show processSegs rooted (dotDotSeg :: bs) (dotDotSeg :: rest)
                = processSegs rooted (dotDotSeg :: dotDotSeg :: bs) rest from by
                simp [processSegs, dotSeg, dotDotSeg]] at ha
            refine ih (dotDotSeg :: dotDotSeg :: bs) ?_ hlrest a ha
            intro x hx
            rcases List.mem_cons.mp hx with h | hx2
            · subst h; exact ⟨by decide, by decide, by decide⟩
            · exact hacc x hx2
          · rw [show processSegs rooted (b :: bs) (dotDotSeg :: rest)
                = processSegs rooted bs rest from by
                have h3b : ¬ b = ['.', '.'] := by simpa [dotDotSeg] using h3
                simp [processSegs, dotSeg, dotDotSeg, h3b]] at ha
            exact ih bs (fun x hx => hacc x (List.mem_cons_of_mem b hx)) hlrest a ha
      · rw [show processSegs rooted acc (seg :: rest)
            = processSegs rooted (seg :: acc) rest from by
            simp only [processSegs]; rw [if_neg h1, if_neg h2]] at ha
        push_neg at h1
        refine ih (seg :: acc) ?_ hlrest a ha
        intro x hx
        rcases List.mem_cons.mp hx with h | hx2
        · subst h; exact ⟨h1.1, h1.2, hl _ (List.mem_cons_self _ rest)⟩
        · exact hacc x hx2

theorem processSegs_rooted_no_dd :
    ∀ (l acc : List (List Char)), (∀ a ∈ acc, a ≠ dotDotSeg) →
      ∀ a ∈ processSegs true acc l, a ≠ dotDotSeg := by
  intro l
  induction l with
  | nil =>
    intro acc hacc a ha
    simp only [processSegs, List.mem_reverse] at ha
    exact hacc a ha
  | cons seg rest ih =>
    intro acc hacc a ha
    by_cases h1 : seg = [] ∨ seg = dotSeg
    · rw [show processSegs true acc (seg :: rest) = processSegs true acc rest from by
        simp only [processSegs]; rw [if_pos h1]] at ha
      exact ih acc hacc a ha
    · by_cases h2 : seg = dotDotSeg
      · subst h2
        cases acc with
        | nil =>
          rw [show processSegs true [] (dotDotSeg :: rest) = processSegs true [] rest from by
            simp [processSegs, dotSeg, dotDotSeg]] at ha
          exact ih [] (by simp) a ha
        | cons b bs =>
          have hb : ¬ b = dotDotSeg := hacc b (List.mem_cons_self b bs)
          rw [show processSegs true (b :: bs) (dotDotSeg :: rest)
              = processSegs true bs rest from by
              have hbb : ¬ b = ['.', '.'] := by simpa [dotDotSeg] using hb
              simp [processSegs, dotSeg, dotDotSeg, hbb]] at ha
          exact ih bs (fun x hx => hacc x (List.mem_cons_of_mem b hx)) a ha
      · rw [show processSegs true acc (seg :: rest)
            = processSegs true (seg :: acc) rest from by
            simp only [processSegs]; rw [if_neg h1, if_neg h2]] at ha
        refine ih (seg :: acc) ?_ a ha
        intro x hx
        rcases List.mem_cons.mp hx with h | hx2
        · subst h; exact h2
        · exact hacc x hx2

end ConcourseWorker

namespace ConcourseWorker

theorem processSegs_rel_structure :
    ∀ (l acc : List (List Char)),
      (∃ reals dds, acc = reals ++ dds ∧ (∀ a ∈ dds, a = dotDotSeg) ∧
        (∀ a ∈ reals, a ≠ dotDotSeg)) →
      ∃ k rest2, processSegs false acc l = List.replicate k dotDotSeg ++ rest2 ∧
        ∀ a ∈ rest2, a ≠ dotDotSeg := by
  intro l
  induction l with
  | nil =>
    intro acc hinv
    rcases hinv with ⟨reals, dds, rfl, hdds, hreals⟩
    refine ⟨dds.length, reals.reverse, ?_, ?_⟩
    · have hdd : dds = List.replicate dds.length dotDotSeg := List.eq_replicate_length.mpr hdds
      simp only [processSegs, List.reverse_append]
      rw [hdd, List.reverse_replicate, List.length_replicate]
    · intro a ha
      exact hreals a (List.mem_reverse.mp ha)
  | cons seg rest ih =>
    intro acc hinv
    by_cases h1 : seg = [] ∨ seg = dotSeg
    · rw [show processSegs false acc (seg :: rest) = processSegs false acc rest from by
        simp only [processSegs]; rw [if_pos h1]]
      exact ih acc hinv
    · by_cases h2 : seg = dotDotSeg
      · subst h2
        rcases hinv with ⟨reals, dds, rfl, hdds, hreals⟩
        cases reals with
        | nil =>
          cases dds with
          | nil =>
            rw [show processSegs false ([] ++ []) (dotDotSeg :: rest)
                = processSegs false [dotDotSeg] rest from by
                simp [processSegs, dotSeg, dotDotSeg]]
            exact ih [dotDotSeg] ⟨[], [dotDotSeg], rfl, by simp, by simp⟩
          | cons d ds =>
            have hd : d = dotDotSeg := hdds d (List.mem_cons_self d ds)
            subst hd
            rw [show processSegs false ([] ++ dotDotSeg :: ds) (dotDotSeg :: rest)
                = processSegs false (dotDotSeg :: dotDotSeg :: ds) rest from by
                simp [processSegs, dotSeg, dotDotSeg]]
            refine ih (dotDotSeg :: dotDotSeg :: ds)
              ⟨[], dotDotSeg :: dotDotSeg :: ds, rfl, ?_, by simp⟩
            intro a ha
            rcases List.mem_cons.mp ha with h | h
            · exact h
            rcases List.mem_cons.mp h with h3 | h3
            · exact h3
            · exact hdds a (List.mem_cons_of_mem dotDotSeg h3)
        | cons r rs =>
          have hr : ¬ r = dotDotSeg := hreals r (List.mem_cons_self r rs)
          rw [show processSegs false ((r :: rs) ++ dds) (dotDotSeg :: rest)
              = processSegs false (rs ++ dds) rest from by
              have hrb : ¬ r = ['.', '.'] := by simpa [dotDotSeg] using hr
              simp [processSegs, dotSeg, dotDotSeg, hrb]]
          exact ih (rs ++ dds)
            ⟨rs, dds, rfl, hdds, fun a ha => hreals a (List.mem_cons_of_mem r ha)⟩
      · rcases hinv with ⟨reals, dds, rfl, hdds, hreals⟩
        rw [show processSegs false (reals ++ dds) (seg :: rest)
            = processSegs false (seg :: (reals ++ dds)) rest from by
            simp only [processSegs]; rw [if_neg h1, if_neg h2]]
        refine ih (seg :: (reals ++ dds)) ⟨seg :: reals, dds, by simp, hdds, ?_⟩
        intro a ha
        rcases List.mem_cons.mp ha with h | h
        · subst h; exact h2
        · exact hreals a h

end ConcourseWorker

namespace ConcourseWorker

theorem cleanChars_rooted (s : List Char) (h : s.head? = some '/') :
    cleanChars s = '/' :: joinSegs (processSegs true [] (splitOnChar '/' [] s)) := by
  have hb : (s.head? == some '/') = true := by simp [h]
  simp [cleanChars, hb]

theorem cleanChars_rel (s : List Char) (h : ¬ s.head? = some '/') :
    cleanChars s =
      if processSegs false [] (splitOnChar '/' [] s) = [] then dotSeg
      else joinSegs (processSegs false [] (splitOnChar '/' [] s)) := by
  have hb : (s.head? == some '/') = false := by simp [h]
  simp [cleanChars, hb]

theorem joinSegs_head (s : List Char) (rest : List (List Char)) (hs : s ≠ []) :
    (joinSegs (s :: rest)).head? = s.head? := by
  cases rest with
  | nil => rfl
  | cons s2 r2 =>
    cases s with
    | nil => exact absurd rfl hs
    | cons c cs => rfl

theorem cleanChars_render_rooted (segs : List (List Char))
    (hwf : ∀ a ∈ segs, a ≠ [] ∧ a ≠ dotSeg ∧ '/' ∉ a)
    (hnodd : ∀ a ∈ segs, a ≠ dotDotSeg) :
    cleanChars ('/' :: joinSegs segs) = '/' :: joinSegs segs := by
  rw [cleanChars_rooted ('/' :: joinSegs segs) rfl]
  congr 1
  rw [show splitOnChar '/' [] ('/' :: joinSegs segs)
      = [] :: splitOnChar '/' [] (joinSegs segs) from by simp [splitOnChar]]
  cases segs with
  | nil => rfl
  | cons s0 srest =>
    rw [splitOnChar_joinSegs (s0 :: srest) (by simp) (fun a ha => (hwf a ha).2.2)]
    rw [show processSegs true [] ([] :: s0 :: srest)
        = processSegs true [] (s0 :: srest) from by simp [processSegs]]
    rw [processSegs_push_all true (s0 :: srest) []
      (fun a ha => ⟨(hwf a ha).1, (hwf a ha).2.1, hnodd a ha⟩)]
    rfl

theorem cleanChars_render_rel (segs : List (List Char))
    (hwf : ∀ a ∈ segs, a ≠ [] ∧ a ≠ dotSeg ∧ '/' ∉ a)
    (hdd : ∃ k rest2, segs = List.replicate k dotDotSeg ++ rest2 ∧
      ∀ a ∈ rest2, a ≠ dotDotSeg) :
    cleanChars (if segs = [] then dotSeg else joinSegs segs)
      = if segs = [] then dotSeg else joinSegs segs := by
  by_cases hnil : segs = []
  · rw [if_pos hnil]
    decide
  · rw [if_neg hnil]
    cases segs with
    | nil => exact absurd rfl hnil
    | cons s0 srest =>
      have hs0 := hwf s0 (List.mem_cons_self s0 srest)
      have hnotroot : ¬ (joinSegs (s0 :: srest)).head? = some '/' := by
        rw [joinSegs_head s0 srest hs0.1]
        cases s0 with
        | nil => exact absurd rfl hs0.1
        | cons c cs =>
          intro hc
          simp only [List.head?_cons, Option.some.injEq] at hc
          exact hs0.2.2 (hc ▸ List.mem_cons_self c cs)
      rw [cleanChars_rel _ hnotroot,
        splitOnChar_joinSegs (s0 :: srest) (by simp) (fun a ha => (hwf a ha).2.2)]
      rcases hdd with ⟨k, rest2, hseg, hrest2⟩
      have hproc : processSegs false [] (s0 :: srest) = s0 :: srest := by
        rw [hseg]
        have hall : ∀ a ∈ rest2, a ≠ [] ∧ a ≠ dotSeg ∧ a ≠ dotDotSeg := by
          intro a ha
          have hamem : a ∈ s0 :: srest := by
            rw [hseg]
            exact List.mem_append_right _ ha
          exact ⟨(hwf a hamem).1, (hwf a hamem).2.1, hrest2 a ha⟩
        simpa using processSegs_dd_run k 0 rest2 hall
      rw [hproc, if_neg hnil]

theorem cleanChars_idem (s : List Char) : cleanChars (cleanChars s) = cleanChars s := by
  have hraw : ∀ a ∈ splitOnChar '/' [] s, '/' ∉ a :=
    mem_splitOnChar_no_sep '/' s [] (by simp)
  by_cases hroot : s.head? = some '/'
  · rw [cleanChars_rooted s hroot]
    exact cleanChars_render_rooted (processSegs true [] (splitOnChar '/' [] s))
      (processSegs_wf true (splitOnChar '/' [] s) [] (by simp) hraw)
      (processSegs_rooted_no_dd (splitOnChar '/' [] s) [] (by simp))
  · rw [cleanChars_rel s hroot]
    exact cleanChars_render_rel (processSegs false [] (splitOnChar '/' [] s))
      (processSegs_wf false (splitOnChar '/' [] s) [] (by simp) hraw)
      (processSegs_rel_structure (splitOnChar '/' [] s) [] ⟨[], [], rfl, by simp, by simp⟩)

/-- Go's `filepath.Clean` is idempotent: cleaning a cleaned path changes
nothing. -/
theorem clean_idem (s : String) : clean (clean s) = clean s :=
  congrArg String.mk (cleanChars_idem s.data)

end ConcourseWorker

namespace ConcourseWorker

/-- When the working-directory volume is allocated, its raw mount path can
never equal a cleaned input or output destination: the `anyMountTo` guards
compare cleaned paths, and `clean` is idempotent, so a `Dir` equal to a
cleaned destination would have been caught by the guard. -/
theorem workdir_path_ne_clean (spec : ContainerSpec) (p : String)
    (hw : hasWorkdirVolume spec = true)
    (hpin : p ∈ inputDestinationPaths spec.inputs ∨ ∃ o ∈ spec.outputs, clean o = p) :
    spec.dir ≠ p := by
  rcases (hasWorkdirVolume_iff spec).mp hw with ⟨_, hain, haout⟩
  intro hdp
  rcases hpin with hin | ⟨o, ho, hop⟩
  · rcases (mem_inputDestinationPaths _ _).mp hin with ⟨i, hi, hip⟩
    refine (anyMountTo_eq_false_iff _ _).mp hain i.destinationPath
      (List.mem_map_of_mem _ hi) ?_
    rw [hdp, ← hip, clean_idem]
  · refine (anyMountTo_eq_false_iff _ _).mp haout o ho ?_
    rw [hdp, ← hop, clean_idem]

/-- C8 (amended): for a container spec whose cleaned input destinations are
pairwise distinct, if an input's cleaned destination equals an output's
cleaned path and that path is not `/scratch`, then the mount plan contains
exactly one mount at that path, the input's allocated volume is mounted
there (at the input's index), and no output volume is allocated for that
path. -/
theorem C8_output_reuses_input (spec : ContainerSpec) (i : InputSource) (o : String)
    (hi : i ∈ spec.inputs) (ho : o ∈ spec.outputs)
    (heq : clean i.destinationPath = clean o)
    (hin : (inputDestinationPaths spec.inputs).Nodup)
    (hscratch : clean o ≠ "/scratch") :
    ((planMounts spec).map VolumeMount.mountPath).count (clean o) = 1 ∧
    (∀ (j : Nat) (hj : j < spec.inputs.length), spec.inputs.get ⟨j, hj⟩ = i →
      (⟨inputVolume j i, clean o⟩ : VolumeMount) ∈ planMounts spec) ∧
    Volume.output (clean o) ∉ (planMounts spec).map VolumeMount.volume := by
  have hoin : clean o ∈ inputDestinationPaths spec.inputs := by
    rw [mem_inputDestinationPaths]
    exact ⟨i, hi, heq⟩
  refine ⟨?_, ?_, output_volume_not_in_plan spec (clean o) hoin⟩
  · rw [(planMounts_map_path_perm spec).count_eq]
    have hwcount : ((workdirMounts spec).map VolumeMount.mountPath).count (clean o) = 0 := by
      unfold workdirMounts
      split_ifs with hw
      · have hne := workdir_path_ne_clean spec (clean o) hw (Or.inl hoin)
        simp [List.count_cons, hne]
      · simp
    have hicount : (inputDestinationPaths spec.inputs).count (clean o) = 1 :=
      List.count_eq_one_of_mem hin hoin
    have hocount : ((spec.outputs.filter
        (fun o2 => !((inputDestinationPaths spec.inputs).contains (clean o2)))).map
          clean).count (clean o) = 0 := by
      rw [List.count_eq_zero]
      intro hmem
      rcases mem_outFiltered spec (clean o) hmem with ⟨o2, _, ho2p, hnot⟩
      exact hnot (ho2p ▸ hoin)
    rw [List.count_append, List.count_cons, hwcount, ioMounts_map_path,
      List.count_append, hicount, hocount]
    simp [Ne.symm hscratch, hscratch]
  · intro j hj hget
    have hmem := mem_inputMountsFrom_get spec.inputs 0 j hj
    rw [Nat.zero_add, hget, heq] at hmem
    unfold planMounts
    refine List.mem_cons.mpr (Or.inr (List.mem_append.mpr (Or.inr ?_)))
    rw [List.mem_insertionSort]
    exact List.mem_append.mpr (Or.inl hmem)

/-- Witness for C8 at a concrete spec: input and output both at `/data`. -/
theorem C8_witness :
    ((planMounts ⟨"", [⟨"/data", true⟩], ["/data"]⟩).map VolumeMount.mountPath).count
        (clean "/data") = 1 ∧
    (⟨inputVolume 0 ⟨"/data", true⟩, clean "/data"⟩ : VolumeMount)
        ∈ planMounts ⟨"", [⟨"/data", true⟩], ["/data"]⟩ ∧
    Volume.output (clean "/data")
        ∉ (planMounts ⟨"", [⟨"/data", true⟩], ["/data"]⟩).map VolumeMount.volume := by
  have h := C8_output_reuses_input ⟨"", [⟨"/data", true⟩], ["/data"]⟩ ⟨"/data", true⟩ "/data"
    (by decide) (by decide) (by decide) (by decide) (by decide)
  exact ⟨h.1, h.2.1 0 (by decide) rfl, h.2.2⟩

end ConcourseWorker
